import Mathlib

/-!
Verification of the chunking and retrieval-validation core of the
`rag-chatbot` repository.

The development shallowly embeds, faithfully to the Python source:

* `TextChunker.chunk_document`, `_split_by_headings`, `_chunk_section` and
  `_url_to_id` from `rag-pipeline/chunker.py`;
* `validate_metadata` from `rag-pipeline/retrieve.py`.

Python strings are modelled as `List Char` (`Str`); Python `str.split()`,
`str.split('\n')`, `str.strip()` and the heading regular expression
`^(#{1,6})\s+(.+)$` are modelled character by character.  The `while` loop of
`_chunk_section` is modelled with explicit fuel (`emitChunks`): the source
loop has no guard against `chunk_overlap >= chunk_size`, in which case it
never terminates, and the fuel model then returns `none`.  `hashlib.md5` is
implemented in full (`md5hex`), operating on the UTF-8 bytes of the URL.
All machine-word arithmetic is `Nat` with explicit reduction `% 2 ^ 32`.
-/

namespace RagChatbot

/-- Python strings, modelled as lists of characters. -/
abbrev Str := List Char

/-- Python's `\s` character class (ASCII range), as used by `str.split()`,
`str.strip()` and the `re` module on the chunker's input. -/
def isPySpace (c : Char) : Bool :=
  c = ' ' ∨ c = '\t' ∨ c = '\n' ∨ c = '\r' ∨ c = '\x0b' ∨ c = '\x0c'

/-- Python `text.split('\n')`: split at every separator, keeping empty
pieces; the result is never empty (`''.split('\n') == ['']`). -/
def splitChar (sep : Char) : Str → List Str
  | [] => [[]]
  | c :: cs =>
    if c = sep then [] :: splitChar sep cs
    else
      match splitChar sep cs with
      | [] => [[c]]
      | w :: ws => (c :: w) :: ws

/-- Python `'\n'.join(lines)`. -/
def joinChar (sep : Char) : List Str → Str
  | [] => []
  | [l] => l
  | l :: ls => l ++ sep :: joinChar sep ls

/-- Worker for `pyWords`: `acc` is the current in-progress word, reversed. -/
def pyWordsAux : Str → Str → List Str
  | [], acc => if acc = [] then [] else [acc.reverse]
  | c :: cs, acc =>
    if isPySpace c then
      if acc = [] then pyWordsAux cs [] else acc.reverse :: pyWordsAux cs []
    else pyWordsAux cs (c :: acc)

/-- Python `text.split()` (no argument): split on runs of whitespace,
discarding empty words. -/
def pyWords (s : Str) : List Str := pyWordsAux s []

/-- Python `' '.join(words)`. -/
def joinWords (ws : List Str) : Str := joinChar ' ' ws

/-- Python `s.lstrip()` for `\s` whitespace. -/
def stripLeft : Str → Str
  | [] => []
  | c :: cs => if isPySpace c then stripLeft cs else c :: cs

/-- Python `s.strip()`. -/
def pyStrip (s : Str) : Str := ((stripLeft s.reverse).reverse |> stripLeft)

/-! ## The heading regular expression

`heading_pattern = re.compile(r'^(#{1,6})\s+(.+)$')`, applied to single lines
(the scan splits on `'\n'` first, so lines contain no newline).  On such a
line the pattern matches exactly when the line is `k` hashes (`1 ≤ k ≤ 6`,
the following character not `#`), then at least one whitespace character,
then at least one further character; `group(2).strip()` then equals the
whole remainder after the hashes, stripped. -/

/-- Length of the leading run of `'#'`. -/
def countHashes : Str → Nat
  | [] => 0
  | c :: cs => if c = '#' then countHashes cs + 1 else 0

/-- `heading_pattern.match(line)` followed by the source's
`level = len(group(1))`, `heading_text = group(2).strip()`:
`some (level, heading_text)` on a match, `none` otherwise. -/
def parseHeading (line : Str) : Option (Nat × Str) :=
  let k := countHashes line
  if 1 ≤ k ∧ k ≤ 6 then
    match line.drop k with
    | [] => none
    | c :: cs => if isPySpace c ∧ cs ≠ [] then some (k, pyStrip (c :: cs)) else none
  else none

/-! ## `_split_by_headings` -/

/-- One entry of the source's `heading_stack`: `{'level': ..., 'text': ...}`. -/
structure Heading where
  level : Nat
  text : Str
deriving DecidableEq

/-- The in-progress `current_section` dict: its heading path and the list of
lines accumulated so far. -/
structure CurSection where
  headings : List Str
  textLines : List Str
deriving DecidableEq

/-- A finished section: heading path plus text (`'\n'.join(lines)`). -/
structure DocSection where
  headings : List Str
  text : Str
deriving DecidableEq

/-- The whole state of the line scan of `_split_by_headings`. -/
structure ScanState where
  sections : List DocSection
  current : CurSection
  stack : List Heading
deriving DecidableEq

/-- Initial scan state: no sections, empty current section, empty stack. -/
def initScan : ScanState := ⟨[], ⟨[], []⟩, []⟩

/-- Close `current_section` into `sections` if it has any line
(`if current_section['text']:`). -/
def flushSection (st : ScanState) : List DocSection :=
  if st.current.textLines = [] then st.sections
  else st.sections ++ [⟨st.current.headings, joinChar '\n' st.current.textLines⟩]

/-- The body of the `for line in lines` loop of `_split_by_headings`. -/
def scanStep (st : ScanState) (line : Str) : ScanState :=
  match parseHeading line with
  | some (level, htext) =>
    let stack := st.stack.filter (fun h => h.level < level) ++ [⟨level, htext⟩]
    { sections := flushSection st
      current := ⟨stack.map (·.text), [line]⟩
      stack := stack }
  | none => { st with current := { st.current with textLines := st.current.textLines ++ [line] } }

/-- `TextChunker._split_by_headings`. -/
def splitByHeadings (text : Str) : List DocSection :=
  flushSection ((splitChar '\n' text).foldl scanStep initScan)

/-! ## `_chunk_section` -/

/-- The chunker configuration (`chunk_size`, `chunk_overlap`), word counts. -/
structure Config where
  chunk_size : Nat
  chunk_overlap : Nat
deriving DecidableEq

/-- A chunk as produced by `_chunk_section`, before `chunk_document` adds
`chunk_index`, `total_chunks` and `chunk_id`. -/
structure SectionChunk where
  text : Str
  url : Str
  title : Str
  module : Option Str
  heading_hierarchy : Str
deriving DecidableEq

/-- `' > '.join(headings) if headings else title`. -/
def headingHierarchy (headings : List Str) (title : Str) : Str :=
  if headings = [] then title else joinChar2 " > ".data headings
where
  /-- `sep.join` for a multi-character separator. -/
  joinChar2 (sep : Str) : List Str → Str
    | [] => []
    | [l] => l
    | l :: ls => l ++ sep ++ joinChar2 sep ls

/-- The `while start < len(words)` loop of `_chunk_section`, as the list of
word windows it emits.  `fuel` bounds the number of iterations: the source
loop advances `start` by `chunk_size - chunk_overlap` each round and stops
once `start >= len(words)`, which never happens when
`chunk_overlap >= chunk_size` (the step is then 0 in this model, negative or
zero in the source); exhausted fuel returns `none`. -/
def emitChunks (size step : Nat) (words : List Str) : Nat → Nat → Option (List (List Str))
  | start, 0 => if start < words.length then none else some []
  | start, fuel + 1 =>
    if start < words.length then
      match emitChunks size step words (start + step) fuel with
      | some rest => some (((words.drop start).take size) :: rest)
      | none => none
    else some []

/-- `TextChunker._chunk_section`.  A section of at most `chunk_size` words is
returned whole as one chunk; a longer one is cut into word windows of
`chunk_size` starting every `chunk_size - chunk_overlap` words, each window
re-joined with single spaces. -/
def chunkSection (cfg : Config) (text : Str) (headings : List Str)
    (url title : Str) (module : Option Str) : List SectionChunk :=
  let words := pyWords text
  if words.length ≤ cfg.chunk_size then
    [⟨text, url, title, module, headingHierarchy headings title⟩]
  else
    ((emitChunks cfg.chunk_size (cfg.chunk_size - cfg.chunk_overlap) words 0
        words.length).getD []).map
      fun ws => ⟨joinWords ws, url, title, module, headingHierarchy headings title⟩

/-! ## `_url_to_id`: `hashlib.md5(url.encode()).hexdigest()[:8]`

MD5 per RFC 1321, on the UTF-8 bytes of the URL.  32-bit words are `Nat`
values reduced `% 2 ^ 32`. -/

/-- UTF-8 encoding of one character (`str.encode()`), as byte values. -/
def encodeChar (c : Char) : List Nat :=
  let n := c.toNat
  if n < 0x80 then [n]
  else if n < 0x800 then [0xc0 + n / 0x40, 0x80 + n % 0x40]
  else if n < 0x10000 then
    [0xe0 + n / 0x1000, 0x80 + n / 0x40 % 0x40, 0x80 + n % 0x40]
  else
    [0xf0 + n / 0x40000, 0x80 + n / 0x1000 % 0x40, 0x80 + n / 0x40 % 0x40, 0x80 + n % 0x40]

/-- `s.encode()`: UTF-8 bytes of a string. -/
def utf8Bytes (s : Str) : List Nat := (s.map encodeChar).flatten

/-- Bitwise complement on 32-bit words represented as `Nat < 2 ^ 32`. -/
def comp32 (x : Nat) : Nat := 0xffffffff - x

/-- Rotate a 32-bit word left by `r` (for `0 < r < 32`, `x < 2 ^ 32`). -/
def rotl32 (x r : Nat) : Nat := x % 2 ^ (32 - r) * 2 ^ r + x / 2 ^ (32 - r)

/-- The 64 MD5 sine constants `K[i] = floor(abs(sin(i+1)) * 2^32)`. -/
def md5K : List Nat :=
  [0xd76aa478, 0xe8c7b756, 0x242070db, 0xc1bdceee,
   0xf57c0faf, 0x4787c62a, 0xa8304613, 0xfd469501,
   0x698098d8, 0x8b44f7af, 0xffff5bb1, 0x895cd7be,
   0x6b901122, 0xfd987193, 0xa679438e, 0x49b40821,
   0xf61e2562, 0xc040b340, 0x265e5a51, 0xe9b6c7aa,
   0xd62f105d, 0x02441453, 0xd8a1e681, 0xe7d3fbc8,
   0x21e1cde6, 0xc33707d6, 0xf4d50d87, 0x455a14ed,
   0xa9e3e905, 0xfcefa3f8, 0x676f02d9, 0x8d2a4c8a,
   0xfffa3942, 0x8771f681, 0x6d9d6122, 0xfde5380c,
   0xa4beea44, 0x4bdecfa9, 0xf6bb4b60, 0xbebfbc70,
   0x289b7ec6, 0xeaa127fa, 0xd4ef3085, 0x04881d05,
   0xd9d4d039, 0xe6db99e5, 0x1fa27cf8, 0xc4ac5665,
   0xf4292244, 0x432aff97, 0xab9423a7, 0xfc93a039,
   0x655b59c3, 0x8f0ccc92, 0xffeff47d, 0x85845dd1,
   0x6fa87e4f, 0xfe2ce6e0, 0xa3014314, 0x4e0811a1,
   0xf7537e82, 0xbd3af235, 0x2ad7d2bb, 0xeb86d391]

/-- The 64 per-round left-rotation amounts. -/
def md5S : List Nat :=
  [7, 12, 17, 22, 7, 12, 17, 22, 7, 12, 17, 22, 7, 12, 17, 22,
   5, 9, 14, 20, 5, 9, 14, 20, 5, 9, 14, 20, 5, 9, 14, 20,
   4, 11, 16, 23, 4, 11, 16, 23, 4, 11, 16, 23, 4, 11, 16, 23,
   6, 10, 15, 21, 6, 10, 15, 21, 6, 10, 15, 21, 6, 10, 15, 21]

/-- The MD5 state: four 32-bit words. -/
structure Md5State where
  a : Nat
  b : Nat
  c : Nat
  d : Nat

/-- One of the 64 MD5 rounds, `i = 0..63`, on message words `M`. -/
def md5Round (M : List Nat) (st : Md5State) (i : Nat) : Md5State :=
  let f :=
    if i < 16 then st.b &&& st.c ||| comp32 st.b &&& st.d
    else if i < 32 then st.d &&& st.b ||| comp32 st.d &&& st.c
    else if i < 48 then st.b ^^^ st.c ^^^ st.d
    else st.c ^^^ (st.b ||| comp32 st.d)
  let g :=
    if i < 16 then i
    else if i < 32 then (5 * i + 1) % 16
    else if i < 48 then (3 * i + 5) % 16
    else 7 * i % 16
  let tmp := (st.a + f + md5K.getD i 0 + M.getD g 0) % 2 ^ 32
  ⟨st.d, (st.b + rotl32 tmp (md5S.getD i 0)) % 2 ^ 32, st.b, st.c⟩

/-- Process one 16-word block. -/
def md5Block (st : Md5State) (M : List Nat) : Md5State :=
  let r := (List.range 64).foldl (md5Round M) st
  ⟨(st.a + r.a) % 2 ^ 32, (st.b + r.b) % 2 ^ 32, (st.c + r.c) % 2 ^ 32, (st.d + r.d) % 2 ^ 32⟩

/-- Little-endian 32-bit words from a byte list whose length is a multiple
of 4. -/
def groupWords : List Nat → List Nat
  | b0 :: b1 :: b2 :: b3 :: rest =>
    (b0 + 0x100 * b1 + 0x10000 * b2 + 0x1000000 * b3) :: groupWords rest
  | _ => []

/-- Fold the blocks of 16 words each through `md5Block`. -/
def md5Chunks (st : Md5State) : List Nat → Md5State
  | w0 :: w1 :: w2 :: w3 :: w4 :: w5 :: w6 :: w7 ::
    w8 :: w9 :: w10 :: w11 :: w12 :: w13 :: w14 :: w15 :: rest =>
    md5Chunks (md5Block st [w0, w1, w2, w3, w4, w5, w6, w7,
                            w8, w9, w10, w11, w12, w13, w14, w15]) rest
  | _ => st

/-- MD5 padding: `0x80`, zeros to 56 mod 64, then the bit length as eight
little-endian bytes. -/
def md5Pad (msg : List Nat) : List Nat :=
  let padZeros := (64 + 55 - msg.length % 64) % 64
  let bitLen := 8 * msg.length
  msg ++ 0x80 :: List.replicate padZeros 0 ++
    [bitLen % 0x100, bitLen / 0x100 % 0x100, bitLen / 0x10000 % 0x100,
     bitLen / 0x1000000 % 0x100, bitLen / 0x100000000 % 0x100,
     bitLen / 0x10000000000 % 0x100, bitLen / 0x1000000000000 % 0x100,
     bitLen / 0x100000000000000 % 0x100]

/-- The sixteen lowercase hexadecimal digits. -/
def hexChars : List Char := "0123456789abcdef".data

/-- The hexadecimal digit of a nibble. -/
def hexDigit (n : Nat) : Char := hexChars.getD (n % 16) '0'

/-- A 32-bit word as eight hex characters, little-endian byte order (as
`hexdigest` prints the state). -/
def hexLE (w : Nat) : Str :=
  ([w % 0x100, w / 0x100 % 0x100, w / 0x10000 % 0x100, w / 0x1000000 % 0x100].map
    fun b => [hexDigit (b / 16), hexDigit (b % 16)]).flatten

/-- `hashlib.md5(s.encode()).hexdigest()`. -/
def md5hex (s : Str) : Str :=
  let st := md5Chunks ⟨0x67452301, 0xefcdab89, 0x98badcfe, 0x10325476⟩
    (groupWords (md5Pad (utf8Bytes s)))
  hexLE st.a ++ hexLE st.b ++ hexLE st.c ++ hexLE st.d

/-- `TextChunker._url_to_id`: the first 8 characters of the URL's MD5
hexdigest. -/
def urlToId (url : Str) : Str := (md5hex url).take 8

/-! ## `chunk_document` -/

/-- A document as consumed by `chunk_document`: `'content'`, `'url'`,
`'title'` are accessed by key (present), `'module'` with `.get` (optional). -/
structure Document where
  url : Str
  title : Str
  content : Str
  module : Option Str

/-- A finished chunk, with the metadata `chunk_document` adds. -/
structure Chunk where
  text : Str
  url : Str
  title : Str
  module : Option Str
  heading_hierarchy : Str
  chunk_index : Nat
  total_chunks : Nat
  chunk_id : Str

/-- Python `str(n)` — the decimal digits of a natural number, as used by the
f-string `f"{...}_{idx}"`. -/
def natToStr (n : Nat) : Str :=
  if n = 0 then ['0'] else ((Nat.digits 10 n).map decDigit).reverse
where
  /-- A decimal digit character. -/
  decDigit (d : Nat) : Char := "0123456789".data.getD d '0'

/-- The `chunk_id` of the chunk at position `idx`:
`f"{self._url_to_id(url)}_{idx}"`. -/
def chunkIdOf (url : Str) (idx : Nat) : Str := urlToId url ++ '_' :: natToStr idx

/-- The `for idx, chunk in enumerate(chunks)` loop of `chunk_document`:
starting at position `i`, set `chunk_index`, `total_chunks` and `chunk_id` on
every chunk. -/
def addIndices (url : Str) (total : Nat) : Nat → List SectionChunk → List Chunk
  | _, [] => []
  | i, c :: cs =>
    ⟨c.text, c.url, c.title, c.module, c.heading_hierarchy, i, total, chunkIdOf url i⟩ ::
      addIndices url total (i + 1) cs

/-- `TextChunker.chunk_document`: split into sections, chunk each section,
concatenate, then index. -/
def chunkDocument (cfg : Config) (doc : Document) : List Chunk :=
  let chunks :=
    ((splitByHeadings doc.content).map fun s =>
      chunkSection cfg s.text s.headings doc.url doc.title doc.module).flatten
  addIndices doc.url chunks.length 0 chunks

/-! ## `validate_metadata` (rag-pipeline/retrieve.py)

A retrieved result is a Python dict read with `.get`, so every field is
optional; a missing `'score'` defaults to `0`.  The similarity score (a
Python float, received as data and only compared against `0.0` and `1.0`) is
modelled as a rational.  The issue message strings the source builds are
modelled as constructors carrying the same data. -/

/-- One retrieved result as `validate_metadata` reads it. -/
structure RetrievedChunk where
  score : Option Rat
  text : Option Str
  url : Option Str
  title : Option Str
  module : Option Str
  heading_hierarchy : Option Str
  chunk_index : Option Int
  total_chunks : Option Int
  chunk_id : Option Str
deriving DecidableEq

/-- The issue messages `validate_metadata` can append for one result. -/
inductive MetaIssue where
  /-- `f"Missing or empty '{field}'"` -/
  | missingField (field : Str)
  /-- `f"Invalid URL format: {url}"` -/
  | invalidUrl (url : Str)
  /-- `f"Invalid chunk index: {chunk_index}/{total_chunks}"` -/
  | invalidIndex (chunk_index total_chunks : Int)
  /-- `f"Score out of range: {score}"` -/
  | scoreOutOfRange (score : Rat)
deriving DecidableEq

/-- Python truthiness of `chunk.get(field)` for a string field: present and
non-empty. -/
def truthy : Option Str → Bool
  | none => false
  | some s => !s.isEmpty

/-- `list.startswith(p)` on character lists. -/
def startsWith : Str → Str → Bool
  | _, [] => true
  | [], _ :: _ => false
  | c :: cs, p :: ps => c = p && startsWith cs ps

/-- The chunk-index check of `validate_metadata`: only when `chunk_index`
and `total_chunks` are both present (`is not None`) is
`0 <= chunk_index < total_chunks` required. -/
def indexIssues : Option Int → Option Int → List MetaIssue
  | some ci, some tc => if ¬(0 ≤ ci ∧ ci < tc) then [.invalidIndex ci tc] else []
  | _, _ => []

/-- The `chunk_issues` list built for one result, in source order: the four
required-field checks, the URL format check, the chunk index check, the
score range check. -/
def recordIssues (r : RetrievedChunk) : List MetaIssue :=
  (if truthy r.text then [] else [.missingField "text".data]) ++
  (if truthy r.url then [] else [.missingField "url".data]) ++
  (if truthy r.title then [] else [.missingField "title".data]) ++
  (if truthy r.chunk_id then [] else [.missingField "chunk_id".data]) ++
  (let url := r.url.getD []
   if url ≠ [] ∧ ¬(startsWith url "http://".data ∨ startsWith url "https://".data) then
     [.invalidUrl url]
   else []) ++
  indexIssues r.chunk_index r.total_chunks ++
  (let s := r.score.getD 0
   if ¬(0 ≤ s ∧ s ≤ 1) then [.scoreOutOfRange s] else [])

/-- One entry of the aggregated `issues` list: enumeration position,
`chunk.get('chunk_id', 'unknown')`, and the per-result issues. -/
structure IssueEntry where
  chunk_index : Nat
  chunk_id : Str
  issues : List MetaIssue
deriving DecidableEq

/-- The aggregate returned by `validate_metadata`. -/
structure MetaReport where
  total_chunks : Nat
  passed : Nat
  failed : Nat
  issues : List IssueEntry
deriving DecidableEq

/-- The `for i, chunk in enumerate(chunks)` loop of `validate_metadata`:
passed count, failed count, issue entries. -/
def vmGo : Nat → List RetrievedChunk → Nat × Nat × List IssueEntry
  | _, [] => (0, 0, [])
  | i, r :: rs =>
    let rest := vmGo (i + 1) rs
    let ris := recordIssues r
    if ris = [] then (rest.1 + 1, rest.2.1, rest.2.2)
    else (rest.1, rest.2.1 + 1, ⟨i, r.chunk_id.getD "unknown".data, ris⟩ :: rest.2.2)

/-- `validate_metadata(chunks)`. -/
def validateMetadata (chunks : List RetrievedChunk) : MetaReport :=
  let r := vmGo 0 chunks
  ⟨chunks.length, r.1, r.2.1, r.2.2⟩

/-! ## Auxiliary notions used by the claims -/

/-- Whether a string contains two consecutive space characters. -/
def hasDoubleSpace : Str → Bool
  | [] => false
  | [_] => false
  | a :: b :: rest => (a = ' ' && b = ' ') || hasDoubleSpace (b :: rest)

/-- The last `n` elements of a list. -/
def lastN (n : Nat) (l : List α) : List α := l.drop (l.length - n)

/-- Strictly increasing heading levels, outermost to innermost. -/
def StackOrdered (s : List Heading) : Prop :=
  List.Pairwise (fun a b => a.level < b.level) s

instance : DecidablePred StackOrdered := fun s =>
  inferInstanceAs (Decidable (List.Pairwise _ s))

/-- A placeholder chunk for positional `getD` lookups in concrete
statements. -/
def emptySC : SectionChunk := ⟨[], [], [], none, []⟩

/-- The content of the spec's end-to-end example document: the heading line
`# Intro` followed by the word `word` repeated 1000 times. -/
def exampleContent : Str := "# Intro\n".data ++ (List.replicate 1000 "word ".data).flatten

/-- The spec's end-to-end example document
`{url: "https://x/a", title: "A", content: "# Intro\n" + "word " * 1000}`. -/
def exampleDoc : Document := ⟨"https://x/a".data, "A".data, exampleContent, none⟩

/-- A retrieval result well-formed in every way except that
`chunk_index = 5` and `total_chunks = 3`. -/
def badIndexRecord : RetrievedChunk :=
  ⟨some 1, some "t".data, some "https://e".data, some "T".data, none, none,
   some 5, some 3, some "abc_0".data⟩

/-! ## Lemmas on `pyWords` -/

/-- Every word `pyWordsAux` emits (over a whitespace-free accumulator) is
non-empty and whitespace-free. -/
theorem pyWordsAux_wf :
    ∀ (s acc : Str), (∀ c ∈ acc, isPySpace c = false) →
      ∀ w ∈ pyWordsAux s acc, w ≠ [] ∧ ∀ c ∈ w, isPySpace c = false := by
  intro s
  induction s with
  | nil =>
    intro acc hacc w hw
    by_cases h : acc = [] <;> simp [pyWordsAux, h] at hw
    subst hw
    refine ⟨by simpa using h, ?_⟩
    intro c hc
    exact hacc c (List.mem_reverse.mp hc)
  | cons c cs ih =>
    intro acc hacc w hw
    cases hsp : isPySpace c with
    | true =>
      by_cases h : acc = []
      · simp only [pyWordsAux, hsp, if_true, h, if_pos] at hw
        exact ih [] (by simp) w hw
      · simp only [pyWordsAux, hsp, if_true, if_neg h] at hw
        rcases List.mem_cons.mp hw with rfl | hw
        · refine ⟨by simpa using h, ?_⟩
          intro x hx
          exact hacc x (List.mem_reverse.mp hx)
        · exact ih [] (by simp) w hw
    | false =>
      simp only [pyWordsAux, hsp, Bool.false_eq_true, if_false] at hw
      refine ih (c :: acc) ?_ w hw
      intro x hx
      rcases List.mem_cons.mp hx with rfl | hx
      · exact hsp
      · exact hacc x hx

/-- Every word of `pyWords s` is non-empty and whitespace-free. -/
theorem pyWords_wf (s : Str) : ∀ w ∈ pyWords s, w ≠ [] ∧ ∀ c ∈ w, isPySpace c = false :=
  pyWordsAux_wf s [] (by simp)

/-- Scanning a whitespace-free prefix just moves it into the accumulator. -/
theorem pyWordsAux_nospace_word :
    ∀ (w : Str), (∀ c ∈ w, isPySpace c = false) →
      ∀ (rest acc : Str), pyWordsAux (w ++ rest) acc = pyWordsAux rest (w.reverse ++ acc) := by
  intro w
  induction w with
  | nil => intro _ rest acc; simp
  | cons c w' ih =>
    intro h rest acc
    have hc : isPySpace c = false := h c (by simp)
    rw [List.cons_append, pyWordsAux, if_neg (by simp [hc])]
    rw [ih (fun x hx => h x (List.mem_cons_of_mem c hx)) rest (c :: acc)]
    simp

/-- Splitting a single-space join of non-empty whitespace-free words
recovers the words (`' '.join(ws).split() == ws`). -/
theorem pyWords_joinWords :
    ∀ (ws : List Str), (∀ w ∈ ws, w ≠ [] ∧ ∀ c ∈ w, isPySpace c = false) →
      pyWords (joinWords ws) = ws := by
  intro ws
  induction ws with
  | nil => intro _; rfl
  | cons w ws' ih =>
    intro h
    obtain ⟨hw, hwc⟩ := h w (by simp)
    cases ws' with
    | nil =>
      have hpre := pyWordsAux_nospace_word w hwc [] []
      rw [List.append_nil] at hpre
      show pyWordsAux w [] = [w]
      rw [hpre]
      simp [pyWordsAux, hw]
    | cons v vs =>
      show pyWordsAux (w ++ ' ' :: joinWords (v :: vs)) [] = w :: v :: vs
      rw [pyWordsAux_nospace_word w hwc _ []]
      have hsp : isPySpace ' ' = true := by decide
      simp only [pyWordsAux, hsp, List.append_nil, if_true,
        List.reverse_eq_nil_iff, List.reverse_reverse]
      rw [if_neg hw]
      exact congrArg _ (ih fun x hx => h x (List.mem_cons_of_mem w hx))

/-! ## Lemmas on `splitChar` / `joinChar` -/

/-- `splitChar` never returns the empty list. -/
theorem splitChar_ne_nil (sep : Char) : ∀ s : Str, splitChar sep s ≠ [] := by
  intro s
  cases s with
  | nil => simp [splitChar]
  | cons c cs =>
    by_cases h : c = sep
    · simp [splitChar, h]
    · simp only [splitChar, if_neg h]
      cases splitChar sep cs <;> simp

/-- Joining the pieces of a split recovers the string
(`'\n'.join(s.split('\n')) == s`). -/
theorem joinChar_splitChar (sep : Char) : ∀ s : Str, joinChar sep (splitChar sep s) = s := by
  intro s
  induction s with
  | nil => rfl
  | cons c cs ih =>
    by_cases h : c = sep
    · subst h
      rw [splitChar, if_pos rfl]
      obtain ⟨l, ls, hl⟩ := List.exists_cons_of_ne_nil (splitChar_ne_nil c cs)
      rw [hl] at ih ⊢
      simpa [joinChar] using ih
    · rw [splitChar, if_neg h]
      obtain ⟨l, ls, hl⟩ := List.exists_cons_of_ne_nil (splitChar_ne_nil sep cs)
      rw [hl] at ih ⊢
      cases ls with
      | nil => simp only [joinChar] at ih ⊢; simp [ih]
      | cons m ms => simp only [joinChar] at ih ⊢; simp [ih]

/-- Splitting a string whose head part is separator-free. -/
theorem splitChar_append_cons {sep : Char} :
    ∀ pre : Str, (∀ c ∈ pre, c ≠ sep) →
      ∀ suf : Str, splitChar sep (pre ++ sep :: suf) = pre :: splitChar sep suf := by
  intro pre
  induction pre with
  | nil => intro _ suf; simp [splitChar]
  | cons c pre' ih =>
    intro h suf
    have hc : c ≠ sep := h c (by simp)
    rw [List.cons_append, splitChar, if_neg hc,
      ih (fun x hx => h x (List.mem_cons_of_mem c hx)) suf]

/-- Splitting a separator-free string returns it whole. -/
theorem splitChar_no_sep {sep : Char} :
    ∀ s : Str, (∀ c ∈ s, c ≠ sep) → splitChar sep s = [s] := by
  intro s
  induction s with
  | nil => intro _; rfl
  | cons c cs ih =>
    intro h
    rw [splitChar, if_neg (h c (by simp)), ih (fun x hx => h x (List.mem_cons_of_mem c hx))]

/-! ## Lemmas on `emitChunks` -/

/-- With a positive step, `len(words)` rounds of fuel always complete the
windowing loop. -/
theorem emitChunks_isSome (size step : Nat) (words : List Str) (hstep : 1 ≤ step) :
    ∀ (fuel start : Nat), words.length ≤ start + fuel →
      (emitChunks size step words start fuel).isSome = true := by
  intro fuel
  induction fuel with
  | zero =>
    intro start h
    rw [emitChunks, if_neg (by omega)]
    rfl
  | succ f ih =>
    intro start h
    rw [emitChunks]
    by_cases hs : start < words.length
    · rw [if_pos hs]
      have hrec := ih (start + step) (by omega)
      cases hr : emitChunks size step words (start + step) f with
      | some rest => simp
      | none => rw [hr] at hrec; simp at hrec
    · rw [if_neg hs]
      rfl

/-- The `i`-th window the loop emits starts at word offset
`start + step * i` and spans `size` words. -/
theorem emitChunks_get (size step : Nat) (words : List Str) :
    ∀ (fuel start : Nat) (l : List (List Str)),
      emitChunks size step words start fuel = some l →
      ∀ (i : Nat) (h : i < l.length),
        l.get ⟨i, h⟩ = (words.drop (start + step * i)).take size := by
  intro fuel
  induction fuel with
  | zero =>
    intro start l hl i h
    by_cases hs : start < words.length
    · rw [emitChunks, if_pos hs] at hl
      exact absurd hl (by simp)
    · rw [emitChunks, if_neg hs] at hl
      injection hl with hl
      subst hl
      simp at h
  | succ f ih =>
    intro start l hl i h
    by_cases hs : start < words.length
    · rw [emitChunks, if_pos hs] at hl
      cases hr : emitChunks size step words (start + step) f with
      | none => rw [hr] at hl; exact absurd hl (by simp)
      | some rest =>
        rw [hr] at hl
        injection hl with hl
        subst hl
        cases i with
        | zero => simp
        | succ j =>
          have hj : j < rest.length := by simpa using h
          have := ih (start + step) rest hr j hj
          have harith : start + step + step * j = start + step * (j + 1) := by
            rw [Nat.mul_succ]; omega
          simpa [harith] using this
    · rw [emitChunks, if_neg hs] at hl
      injection hl with hl
      subst hl
      simp at h

/-- Every character of every emitted window is a character of the word
list. -/
theorem emitChunks_window_mem (size step : Nat) (words : List Str)
    (fuel start : Nat) (l : List (List Str))
    (hl : emitChunks size step words start fuel = some l) :
    ∀ w ∈ l, ∀ x ∈ w, x ∈ words := by
  intro w hw x hx
  obtain ⟨⟨i, hi⟩, rfl⟩ := List.mem_iff_get.mp hw
  rw [emitChunks_get size step words fuel start l hl i hi] at hx
  exact ((List.take_sublist _ _).trans (List.drop_sublist _ _)).subset hx

/-! ## Lemmas on `addIndices` -/

theorem addIndices_length (url : Str) (total : Nat) :
    ∀ (i : Nat) (cs : List SectionChunk), (addIndices url total i cs).length = cs.length := by
  intro i cs
  induction cs generalizing i with
  | nil => rfl
  | cons c cs ih => simp [addIndices, ih]

theorem addIndices_map_text (url : Str) (total : Nat) :
    ∀ (i : Nat) (cs : List SectionChunk),
      (addIndices url total i cs).map (·.text) = cs.map (·.text) := by
  intro i cs
  induction cs generalizing i with
  | nil => rfl
  | cons c cs ih => simp [addIndices, ih]

theorem addIndices_map_hierarchy (url : Str) (total : Nat) :
    ∀ (i : Nat) (cs : List SectionChunk),
      (addIndices url total i cs).map (·.heading_hierarchy) = cs.map (·.heading_hierarchy) := by
  intro i cs
  induction cs generalizing i with
  | nil => rfl
  | cons c cs ih => simp [addIndices, ih]

theorem addIndices_map_total (url : Str) (total : Nat) :
    ∀ (i : Nat) (cs : List SectionChunk),
      (addIndices url total i cs).map (·.total_chunks) = List.replicate cs.length total := by
  intro i cs
  induction cs generalizing i with
  | nil => rfl
  | cons c cs ih => simp [addIndices, ih, List.replicate_succ]

theorem addIndices_map_index (url : Str) (total : Nat) :
    ∀ (i : Nat) (cs : List SectionChunk),
      (addIndices url total i cs).map (·.chunk_index) = List.range' i cs.length := by
  intro i cs
  induction cs generalizing i with
  | nil => rfl
  | cons c cs ih => simp [addIndices, ih, List.range'_succ]

theorem addIndices_map_id (url : Str) (total : Nat) :
    ∀ (i : Nat) (cs : List SectionChunk),
      (addIndices url total i cs).map (·.chunk_id) =
        (List.range' i cs.length).map (chunkIdOf url) := by
  intro i cs
  induction cs generalizing i with
  | nil => rfl
  | cons c cs ih => simp [addIndices, ih, List.range'_succ]

theorem addIndices_get_id (url : Str) (total : Nat) :
    ∀ (cs : List SectionChunk) (i j : Nat) (h : j < (addIndices url total i cs).length),
      ((addIndices url total i cs).get ⟨j, h⟩).chunk_id = chunkIdOf url (i + j) := by
  intro cs
  induction cs with
  | nil => intro i j h; simp [addIndices] at h
  | cons c cs ih =>
    intro i j h
    cases j with
    | zero => simp [addIndices]
    | succ k =>
      have hk : k < (addIndices url total (i + 1) cs).length := by
        simpa [addIndices] using h
      have := ih (i + 1) k hk
      have harith : i + 1 + k = i + (k + 1) := by omega
      rw [harith] at this
      simpa [addIndices] using this

/-! ## Lemmas on joined windows: no newline, no double space -/

/-- A character of a single-space join is a space or a character of some
word. -/
theorem mem_joinWords {c : Char} :
    ∀ {ws : List Str}, c ∈ joinWords ws → c = ' ' ∨ ∃ w ∈ ws, c ∈ w := by
  intro ws
  induction ws with
  | nil => intro h; exact absurd h (by simp [joinWords, joinChar])
  | cons w ws' ih =>
    intro h
    cases ws' with
    | nil =>
      right
      exact ⟨w, by simp, h⟩
    | cons v vs =>
      rcases List.mem_append.mp h with hw | hrest
      · exact Or.inr ⟨w, by simp, hw⟩
      · rcases List.mem_cons.mp hrest with rfl | hj
        · exact Or.inl rfl
        · rcases ih hj with hsp | ⟨u, hu, hc⟩
          · exact Or.inl hsp
          · exact Or.inr ⟨u, List.mem_cons_of_mem w hu, hc⟩

/-- Prepending space-free characters does not create a double space. -/
theorem hasDoubleSpace_append :
    ∀ (w t : Str), (∀ c ∈ w, c ≠ ' ') →
      hasDoubleSpace (w ++ t) = hasDoubleSpace t := by
  intro w
  induction w with
  | nil => intro t _; rfl
  | cons a w' ih =>
    intro t h
    have ha : a ≠ ' ' := h a (by simp)
    cases w' with
    | nil =>
      cases t with
      | nil => rfl
      | cons b t' => simp [hasDoubleSpace, ha]
    | cons a' w'' =>
      have := ih t fun c hc => h c (List.mem_cons_of_mem a hc)
      simpa [hasDoubleSpace, ha] using this

/-- A single-space join of non-empty whitespace-free words has no double
space. -/
theorem hasDoubleSpace_joinWords :
    ∀ ws : List Str, (∀ w ∈ ws, w ≠ [] ∧ ∀ c ∈ w, isPySpace c = false) →
      hasDoubleSpace (joinWords ws) = false := by
  have nospace : ∀ (c : Char), isPySpace c = false → c ≠ ' ' := by
    intro c h hc
    subst hc
    exact absurd h (by decide)
  intro ws
  induction ws with
  | nil => intro _; rfl
  | cons w ws' ih =>
    intro h
    obtain ⟨hw, hwc⟩ := h w (by simp)
    cases ws' with
    | nil =>
      show hasDoubleSpace w = false
      rw [← List.append_nil w, hasDoubleSpace_append w [] fun c hc => nospace c (hwc c hc)]
      rfl
    | cons v vs =>
      show hasDoubleSpace (w ++ ' ' :: joinWords (v :: vs)) = false
      rw [hasDoubleSpace_append w _ fun c hc => nospace c (hwc c hc)]
      obtain ⟨hv, hvc⟩ := h v (by simp)
      obtain ⟨b, v', rfl⟩ := List.exists_cons_of_ne_nil hv
      have hb : b ≠ ' ' := nospace b (hvc b (by simp))
      have htail := ih fun x hx => h x (List.mem_cons_of_mem w hx)
      cases vs with
      | nil => simpa [joinWords, joinChar, hasDoubleSpace, hb] using htail
      | cons u us =>
        have hshape : joinWords ((b :: v') :: u :: us) = b :: (v' ++ ' ' :: joinWords (u :: us)) := by
          simp [joinWords, joinChar]
        rw [hshape] at htail ⊢
        simpa [hasDoubleSpace, hb] using htail

/-! ## Lemmas on `natToStr` and `chunkIdOf` -/

theorem decDigit_inj :
    ∀ d1 < 10, ∀ d2 < 10, natToStr.decDigit d1 = natToStr.decDigit d2 → d1 = d2 := by
  decide

/-- Mapping decimal digits to characters is invertible on digit lists. -/
theorem map_decDigit_inj :
    ∀ (l1 l2 : List Nat), (∀ d ∈ l1, d < 10) → (∀ d ∈ l2, d < 10) →
      l1.map natToStr.decDigit = l2.map natToStr.decDigit → l1 = l2 := by
  intro l1
  induction l1 with
  | nil => intro l2 _ _ h; cases l2 <;> simp_all
  | cons d l1' ih =>
    intro l2 h1 h2 h
    cases l2 with
    | nil => simp at h
    | cons e l2' =>
      simp only [List.map_cons, List.cons.injEq] at h
      have hde : d = e :=
        decDigit_inj d (h1 d (by simp)) e (h2 e (by simp)) h.1
      have := ih l2' (fun x hx => h1 x (List.mem_cons_of_mem d hx))
        (fun x hx => h2 x (List.mem_cons_of_mem e hx)) h.2
      rw [hde, this]

/-- `str(n)` is injective: distinct indices have distinct decimal
renderings. -/
theorem natToStr_inj : ∀ m n : Nat, natToStr m = natToStr n → m = n := by
  have digits_fact : ∀ k : Nat, (Nat.digits 10 k).map natToStr.decDigit = ['0'] → k = 0 := by
    intro k h
    have hlen : (Nat.digits 10 k).length = 1 := by
      have := congrArg List.length h
      simpa using this
    obtain ⟨d, hd⟩ : ∃ d, Nat.digits 10 k = [d] := by
      cases hk : Nat.digits 10 k with
      | nil => rw [hk] at hlen; simp at hlen
      | cons d t =>
        rw [hk] at hlen
        simp at hlen
        exact ⟨d, by rw [hlen]⟩
    rw [hd] at h
    simp only [List.map_cons, List.map_nil, List.cons.injEq] at h
    have hd10 : d < 10 := Nat.digits_lt_base (by norm_num) (hd ▸ List.mem_singleton_self d)
    have : d = 0 := decDigit_inj d hd10 0 (by norm_num) (by simpa using h.1)
    subst this
    have := Nat.ofDigits_digits 10 k
    rw [hd] at this
    simpa [Nat.ofDigits] using this.symm
  intro m n h
  by_cases hm : m = 0 <;> by_cases hn : n = 0
  · rw [hm, hn]
  · subst hm
    rw [natToStr, if_pos rfl, natToStr, if_neg hn] at h
    have hmap : (Nat.digits 10 n).map natToStr.decDigit = ['0'] := by
      have := congrArg List.reverse h.symm
      simpa using this
    exact absurd (digits_fact n hmap) hn
  · subst hn
    rw [natToStr, if_neg hm, natToStr, if_pos rfl] at h
    have hmap : (Nat.digits 10 m).map natToStr.decDigit = ['0'] := by
      have := congrArg List.reverse h
      simpa using this
    exact absurd (digits_fact m hmap) hm
  · rw [natToStr, if_neg hm, natToStr, if_neg hn] at h
    have h2 := List.reverse_injective h
    have hdig := map_decDigit_inj _ _
      (fun d hd => Nat.digits_lt_base (by norm_num) hd)
      (fun d hd => Nat.digits_lt_base (by norm_num) hd) h2
    calc m = Nat.ofDigits 10 (Nat.digits 10 m) := (Nat.ofDigits_digits 10 m).symm
      _ = Nat.ofDigits 10 (Nat.digits 10 n) := by rw [hdig]
      _ = n := Nat.ofDigits_digits 10 n

/-- `chunk_id`s with the same URL prefix and distinct indices are
distinct. -/
theorem chunkIdOf_inj (url : Str) (i j : Nat) (hij : i ≠ j) :
    chunkIdOf url i ≠ chunkIdOf url j := by
  intro h
  unfold chunkIdOf at h
  have h2 := List.append_cancel_left h
  injection h2 with _ h3
  exact hij (natToStr_inj i j h3)

/-! ## Lemmas on the MD5 hexdigest -/

theorem length_hexLE (w : Nat) : (hexLE w).length = 8 := by
  simp [hexLE]

theorem length_md5hex (s : Str) : (md5hex s).length = 32 := by
  simp [md5hex, length_hexLE]

/-- The URL prefix of a `chunk_id` has exactly 8 characters. -/
theorem length_urlToId (url : Str) : (urlToId url).length = 8 := by
  simp [urlToId, length_md5hex]

theorem hexDigit_mem (n : Nat) : hexDigit n ∈ hexChars := by
  unfold hexDigit
  have h : n % 16 < 16 := Nat.mod_lt _ (by norm_num)
  generalize n % 16 = m at h
  interval_cases m <;> decide

/-- Every character of the hexdigest is a lowercase hexadecimal digit. -/
theorem md5hex_chars (s : Str) : ∀ c ∈ md5hex s, c ∈ hexChars := by
  have hle : ∀ (w : Nat), ∀ c ∈ hexLE w, c ∈ hexChars := by
    intro w c hc
    obtain ⟨sub, hsub, hcsub⟩ := List.mem_flatten.mp hc
    obtain ⟨b, _, rfl⟩ := List.mem_map.mp hsub
    rcases List.mem_cons.mp hcsub with rfl | hcsub
    · exact hexDigit_mem _
    · rcases List.mem_cons.mp hcsub with rfl | hcsub
      · exact hexDigit_mem _
      · simp at hcsub
  intro c hc
  simp only [md5hex, List.mem_append] at hc
  rcases hc with ((h | h) | h) | h <;> exact hle _ c h

/-- Every character of a `_url_to_id` prefix is a hexadecimal digit. -/
theorem urlToId_chars (url : Str) : ∀ c ∈ urlToId url, c ∈ hexChars := by
  intro c hc
  exact md5hex_chars url c ((List.take_sublist _ _).subset hc)

/-! ## Lemmas on the heading scan -/

/-- The scan step keeps the heading stack strictly ordered by level. -/
theorem scanStep_stack_ordered (st : ScanState) (line : Str)
    (h : StackOrdered st.stack) : StackOrdered (scanStep st line).stack := by
  cases hp : parseHeading line with
  | none => simpa [scanStep, hp] using h
  | some lv =>
    obtain ⟨level, htext⟩ := lv
    simp only [scanStep, hp, StackOrdered]
    rw [List.pairwise_append]
    refine ⟨h.sublist (List.filter_sublist _), by simp, ?_⟩
    intro a ha b hb
    rcases List.mem_singleton.mp hb with rfl
    have := (List.mem_filter.mp ha).2
    simpa using this

/-- Over any line list, starting from the empty stack, the scan's heading
stack stays strictly ordered by level. -/
theorem scan_stack_ordered (lines : List Str) :
    StackOrdered ((lines.foldl scanStep initScan).stack) := by
  suffices h : ∀ st : ScanState, StackOrdered st.stack →
      StackOrdered ((lines.foldl scanStep st).stack) from
    h initScan (by simp [initScan, StackOrdered])
  induction lines with
  | nil => intro st h; exact h
  | cons l ls ih =>
    intro st h
    exact ih (scanStep st l) (scanStep_stack_ordered st l h)

/-- Feeding only non-heading lines appends them to the current section and
changes nothing else. -/
theorem foldl_scanStep_no_heading :
    ∀ (lines : List Str), (∀ l ∈ lines, parseHeading l = none) →
      ∀ (secs : List DocSection) (hs : List Str) (tls : List Str) (stk : List Heading),
        lines.foldl scanStep ⟨secs, ⟨hs, tls⟩, stk⟩ = ⟨secs, ⟨hs, tls ++ lines⟩, stk⟩ := by
  intro lines
  induction lines with
  | nil => intro _ secs hs tls stk; simp
  | cons l ls ih =>
    intro h secs hs tls stk
    have hl : parseHeading l = none := h l (by simp)
    show List.foldl scanStep (scanStep ⟨secs, ⟨hs, tls⟩, stk⟩ l) ls = _
    rw [scanStep, hl]
    rw [ih (fun x hx => h x (List.mem_cons_of_mem l hx)) secs hs (tls ++ [l]) stk]
    simp

/-- On a document with no heading line, `_split_by_headings` returns one
section: no headings, text the whole content. -/
theorem splitByHeadings_no_heading (content : Str)
    (h : ∀ l ∈ splitChar '\n' content, parseHeading l = none) :
    splitByHeadings content = [⟨[], content⟩] := by
  unfold splitByHeadings initScan
  rw [foldl_scanStep_no_heading _ h [] [] [] []]
  have hne : splitChar '\n' content ≠ [] := splitChar_ne_nil '\n' content
  rw [flushSection]
  simp only [List.nil_append]
  rw [if_neg hne]
  rw [joinChar_splitChar]

/-- A line that does not start with `#` is not a heading. -/
theorem parseHeading_not_hash {c : Char} (h : c ≠ '#') (cs : Str) :
    parseHeading (c :: cs) = none := by
  unfold parseHeading
  rw [countHashes, if_neg h]
  simp

/-! ## Evaluation of the spec's end-to-end example -/

/-- The windowing loop halts immediately once `start >= len(words)`. -/
theorem emitChunks_stop (size step : Nat) (words : List Str) (start fuel : Nat)
    (h : ¬start < words.length) :
    emitChunks size step words start fuel = some [] := by
  cases fuel <;> simp [emitChunks, h]

/-- One iteration of the windowing loop while `start < len(words)`. -/
theorem emitChunks_go (size step : Nat) (words : List Str) (start fuel : Nat)
    (rest : List (List Str)) (h : start < words.length)
    (hrec : emitChunks size step words (start + step) fuel = some rest) :
    emitChunks size step words start (fuel + 1) =
      some (((words.drop start).take size) :: rest) := by
  rw [emitChunks, if_pos h, hrec]

/-- Splitting `"word " * n` into words gives `n` copies of `word`. -/
theorem pyWordsAux_replicate_word (n : Nat) :
    pyWordsAux ((List.replicate n "word ".data).flatten) [] =
      List.replicate n ['w', 'o', 'r', 'd'] := by
  induction n with
  | zero => rfl
  | succ m ih =>
    rw [List.replicate_succ, List.flatten_cons]
    have hsplit : "word ".data = ['w', 'o', 'r', 'd'] ++ [' '] := by decide
    nth_rewrite 1 [hsplit]
    rw [List.append_assoc, pyWordsAux_nospace_word ['w', 'o', 'r', 'd'] (by decide) _ [],
      List.singleton_append]
    rw [pyWordsAux]
    rw [if_pos (by decide : isPySpace ' ' = true)]
    rw [if_neg (by decide : ¬((['w', 'o', 'r', 'd'] : Str).reverse ++ [] = []))]
    rw [ih]
    simp [List.replicate_succ]

/-- The example content splits into the word stream
`# Intro word ... word` (1002 words). -/
theorem exampleContent_words :
    pyWords exampleContent = ['#'] :: ['I', 'n', 't', 'r', 'o'] :: List.replicate 1000 ['w', 'o', 'r', 'd'] := by
  have hshape : ∀ w : Str, "# Intro\n".data ++ w = '#' :: ' ' :: (['I', 'n', 't', 'r', 'o'] ++ ('\n' :: w)) := by
    intro w
    have h8 : "# Intro\n".data = '#' :: ' ' :: (['I', 'n', 't', 'r', 'o'] ++ ['\n']) := by decide
    rw [h8]
    simp
  show pyWordsAux exampleContent [] = _
  rw [exampleContent, hshape]
  rw [pyWordsAux]
  rw [if_neg (by decide : ¬isPySpace '#' = true)]
  rw [pyWordsAux]
  rw [if_pos (by decide : isPySpace ' ' = true), if_neg (by decide : ¬(['#'] : Str) = [])]
  rw [pyWordsAux_nospace_word ['I', 'n', 't', 'r', 'o'] (by decide) _ []]
  rw [pyWordsAux]
  rw [if_pos (by decide : isPySpace '\n' = true)]
  rw [if_neg (by decide : ¬((['I', 'n', 't', 'r', 'o'] : Str).reverse ++ [] = []))]
  rw [pyWordsAux_replicate_word]
  simp only [List.append_nil, List.reverse_reverse, List.reverse_cons, List.reverse_nil,
    List.nil_append]
  rw [show ((['o'] ++ ['r'] ++ ['t'] ++ ['n'] ++ ['I']).reverse : Str) = ['I', 'n', 't', 'r', 'o']
    from by decide]

/-- No character of `"word " * 1000` is a newline. -/
theorem exampleTail_no_newline :
    ∀ c ∈ ((List.replicate 1000 "word ".data).flatten : Str), c ≠ '\n' := by
  intro c hc
  obtain ⟨sub, hsub, hcsub⟩ := List.mem_flatten.mp hc
  rw [List.eq_of_mem_replicate hsub] at hcsub
  have hword : ∀ x ∈ ("word ".data : Str), x ≠ '\n' := by decide
  exact hword c hcsub

/-- The example content is the heading line, a newline, and the repeated
words. -/
theorem exampleContent_shape :
    exampleContent = "# Intro".data ++ '\n' :: (List.replicate 1000 "word ".data).flatten := by
  rw [exampleContent, show ("# Intro\n".data : Str) = "# Intro".data ++ ['\n'] from by decide]
  rw [List.append_assoc, List.singleton_append]

/-- The example content splits into exactly two lines. -/
theorem exampleContent_lines :
    splitChar '\n' exampleContent =
      ["# Intro".data, (List.replicate 1000 "word ".data).flatten] := by
  rw [exampleContent_shape, splitChar_append_cons "# Intro".data (by decide) _,
    splitChar_no_sep _ exampleTail_no_newline]

/-- The second line of the example is not a heading. -/
theorem exampleTail_not_heading :
    parseHeading ((List.replicate 1000 "word ".data).flatten) = none := by
  rw [show (1000 : Nat) = 999 + 1 from rfl, List.replicate_succ, List.flatten_cons,
    show ("word ".data : Str) = 'w' :: "ord ".data from by decide, List.cons_append]
  exact parseHeading_not_hash (by decide) _

/-- The example content has exactly one section, headed `Intro`, whose text
is the whole content. -/
theorem exampleContent_sections :
    splitByHeadings exampleContent = [⟨[['I', 'n', 't', 'r', 'o']], exampleContent⟩] := by
  unfold splitByHeadings
  rw [exampleContent_lines, exampleContent_shape]
  generalize hW : (List.replicate 1000 "word ".data).flatten = W
  have hpW : parseHeading W = none := by rw [← hW]; exact exampleTail_not_heading
  rw [List.foldl_cons, List.foldl_cons, List.foldl_nil]
  rw [show scanStep initScan "# Intro".data =
      ⟨[], ⟨[['I', 'n', 't', 'r', 'o']], ["# Intro".data]⟩, [⟨1, ['I', 'n', 't', 'r', 'o']⟩]⟩
    from by decide]
  rw [scanStep, hpW]
  rfl

/-- The two word windows of the example section. -/
theorem exampleContent_windows :
    emitChunks 800 700 (pyWords exampleContent) 0 (pyWords exampleContent).length =
      some [['#'] :: ['I', 'n', 't', 'r', 'o'] :: List.replicate 798 ['w', 'o', 'r', 'd'],
            List.replicate 302 ['w', 'o', 'r', 'd']] := by
  rw [exampleContent_words]
  set words : List Str :=
    ['#'] :: ['I', 'n', 't', 'r', 'o'] :: List.replicate 1000 ['w', 'o', 'r', 'd'] with hwords
  have hlen : words.length = 1002 := by
    rw [hwords]
    simp only [List.length_cons, List.length_replicate]
  have hstop : emitChunks 800 700 words 1400 1000 = some [] :=
    emitChunks_stop _ _ _ _ _ (by rw [hlen]; omega)
  have h1 : emitChunks 800 700 words 700 (1000 + 1) =
      some [(words.drop 700).take 800] := by
    have := emitChunks_go 800 700 words 700 1000 [] (by rw [hlen]; omega)
      (by rw [show (700 + 700 : Nat) = 1400 from rfl]; exact hstop)
    exact this
  have h0 : emitChunks 800 700 words 0 (1001 + 1) =
      some [(words.drop 0).take 800, (words.drop 700).take 800] := by
    have := emitChunks_go 800 700 words 0 1001 [(words.drop 700).take 800]
      (by rw [hlen]; omega) (by rw [show (0 + 700 : Nat) = 700 from rfl]; exact h1)
    exact this
  rw [hlen, show (1002 : Nat) = 1001 + 1 from rfl, h0]
  rw [hwords]
  rw [List.drop_zero]
  rw [show (800 : Nat) = 799 + 1 from rfl, List.take_succ_cons,
    show (799 : Nat) = 798 + 1 from rfl, List.take_succ_cons, List.take_replicate]
  rw [show (700 : Nat) = 699 + 1 from rfl, List.drop_succ_cons,
    show (699 : Nat) = 698 + 1 from rfl, List.drop_succ_cons, List.drop_replicate,
    List.take_replicate]
  norm_num

/-- The example document's chunk list, written out. -/
theorem exampleDoc_chunkList :
    chunkDocument ⟨800, 100⟩ exampleDoc =
      addIndices "https://x/a".data 2 0
        [⟨joinWords (['#'] :: ['I', 'n', 't', 'r', 'o'] :: List.replicate 798 ['w', 'o', 'r', 'd']),
          "https://x/a".data, "A".data, none, ['I', 'n', 't', 'r', 'o']⟩,
         ⟨joinWords (List.replicate 302 ['w', 'o', 'r', 'd']),
          "https://x/a".data, "A".data, none, ['I', 'n', 't', 'r', 'o']⟩] := by
  have hwlen : (pyWords exampleContent).length = 1002 := by
    rw [exampleContent_words]
    simp only [List.length_cons, List.length_replicate]
  simp only [chunkDocument, exampleDoc]
  rw [exampleContent_sections]
  simp only [List.map_cons, List.map_nil, List.flatten_cons, List.flatten_nil, List.append_nil]
  simp only [chunkSection]
  rw [if_neg (by rw [hwlen]; omega)]
  rw [show (800 - 100 : Nat) = 700 from rfl]
  rw [exampleContent_windows]
  simp only [Option.getD_some, List.map_cons, List.map_nil]
  rfl

/-- Word lists of the two example windows are well-formed (non-empty,
whitespace-free words). -/
theorem exampleWindows_wf :
    (∀ w ∈ (['#'] :: ['I', 'n', 't', 'r', 'o'] :: List.replicate 798 ['w', 'o', 'r', 'd'] :
        List Str), w ≠ [] ∧ ∀ c ∈ w, isPySpace c = false) ∧
    (∀ w ∈ (List.replicate 302 ['w', 'o', 'r', 'd'] : List Str),
        w ≠ [] ∧ ∀ c ∈ w, isPySpace c = false) := by
  constructor
  · intro w hw
    rcases List.mem_cons.mp hw with rfl | hw
    · exact ⟨by decide, by decide⟩
    rcases List.mem_cons.mp hw with rfl | hw
    · exact ⟨by decide, by decide⟩
    · rw [List.eq_of_mem_replicate hw]
      exact ⟨by decide, by decide⟩
  · intro w hw
    rw [List.eq_of_mem_replicate hw]
    exact ⟨by decide, by decide⟩

/-- The observable facts of the example run: 2 chunks, word counts 800 and
302, heading hierarchy `Intro` on both, `total_chunks = 2` on both. -/
theorem exampleDoc_eval :
    (chunkDocument ⟨800, 100⟩ exampleDoc).length = 2 ∧
    (chunkDocument ⟨800, 100⟩ exampleDoc).map (fun c => (pyWords c.text).length) = [800, 302] ∧
    (chunkDocument ⟨800, 100⟩ exampleDoc).map (·.heading_hierarchy) = ["Intro".data, "Intro".data] ∧
    (chunkDocument ⟨800, 100⟩ exampleDoc).map (·.total_chunks) = [2, 2] := by
  rw [exampleDoc_chunkList]
  simp only [addIndices, List.length_cons, List.length_nil, List.map_cons, List.map_nil]
  refine ⟨by trivial, ?_, by decide, by trivial⟩
  rw [pyWords_joinWords _ exampleWindows_wf.1, pyWords_joinWords _ exampleWindows_wf.2]
  simp only [List.length_cons, List.length_replicate]

/-! ## Lemmas on `validate_metadata` -/

/-- The pass and fail counters partition the input. -/
theorem vmGo_counts : ∀ (rs : List RetrievedChunk) (i : Nat),
    (vmGo i rs).1 + (vmGo i rs).2.1 = rs.length := by
  intro rs
  induction rs with
  | nil => intro i; rfl
  | cons r rs ih =>
    intro i
    have h1 := ih (i + 1)
    by_cases h : recordIssues r = [] <;> simp [vmGo, h] <;> omega

theorem ite_nil_iff {p : Prop} [Decidable p] (x : MetaIssue) :
    ((if p then ([] : List MetaIssue) else [x]) = []) ↔ p := by
  by_cases h : p <;> simp [h]

theorem ite_nil_iff_not {p : Prop} [Decidable p] (x : MetaIssue) :
    ((if p then ([x] : List MetaIssue) else []) = []) ↔ ¬p := by
  by_cases h : p <;> simp [h]

/-- The index check passes exactly when the bound holds whenever both
fields are present. -/
theorem indexIssues_nil_iff (ci tc : Option Int) :
    indexIssues ci tc = [] ↔
      ∀ ci' tc', ci = some ci' → tc = some tc' → 0 ≤ ci' ∧ ci' < tc' := by
  cases ci <;> cases tc <;> simp [indexIssues, ite_nil_iff_not]

/-! # The claims -/

/-- **C1.** For every document, `chunk_document` returns a list of some
length `N` such that every chunk carries `total_chunks = N`, the
`chunk_index` values in list order are exactly `0, 1, ..., N-1` (so
`0 ≤ chunk_index < total_chunks` everywhere), and each `chunk_id` is the
first 8 hex characters of the MD5 of the url (`urlToId`), an underscore,
and the chunk's index. -/
theorem chunk_document_indexing (cfg : Config) (doc : Document) :
    (chunkDocument cfg doc).map (·.total_chunks) =
        List.replicate (chunkDocument cfg doc).length (chunkDocument cfg doc).length ∧
      (chunkDocument cfg doc).map (·.chunk_index) = List.range (chunkDocument cfg doc).length ∧
      (chunkDocument cfg doc).map (·.chunk_id) =
        (List.range (chunkDocument cfg doc).length).map
          (fun k => urlToId doc.url ++ '_' :: natToStr k) := by
  simp only [chunkDocument]
  generalize ((splitByHeadings doc.content).map fun s =>
    chunkSection cfg s.text s.headings doc.url doc.title doc.module).flatten = cs
  rw [addIndices_map_total, addIndices_map_index, addIndices_map_id, addIndices_length,
    List.range_eq_range']
  exact ⟨rfl, rfl, rfl⟩

/-- **C3 counterexample.** On a document with empty content the code returns
ONE chunk, not zero: the final flush sees the truthy line list `['']`, emits
one empty section, and the empty section becomes one chunk with empty
text. -/
theorem empty_content_counterexample :
    (chunkDocument ⟨800, 100⟩ ⟨"u".data, "t".data, [], none⟩).length = 1 ∧
      chunkDocument ⟨800, 100⟩ ⟨"u".data, "t".data, [], none⟩ ≠ [] := by
  have h1 : (chunkDocument ⟨800, 100⟩ ⟨"u".data, "t".data, [], none⟩).length = 1 := by decide
  refine ⟨h1, fun h => ?_⟩
  rw [h] at h1
  simp at h1

/-- **C3 amended.** A document whose content is the empty string produces
exactly one chunk, whose text is the empty string; no error occurs. -/
theorem empty_content_one_chunk (cfg : Config) (url title : Str) (module : Option Str) :
    (chunkDocument cfg ⟨url, title, [], module⟩).map (·.text) = [[]] ∧
      (chunkDocument cfg ⟨url, title, [], module⟩).length = 1 := by
  have hsec : splitByHeadings ([] : Str) = [⟨[], []⟩] := by
    apply splitByHeadings_no_heading
    intro l hl
    have hspl : splitChar '\n' ([] : Str) = [[]] := rfl
    rw [hspl] at hl
    rcases List.mem_singleton.mp hl with rfl
    decide
  have hw : pyWords ([] : Str) = [] := rfl
  simp only [chunkDocument, hsec, List.map_cons, List.map_nil, List.flatten_cons,
    List.flatten_nil, List.append_nil]
  simp [chunkSection, hw, headingHierarchy, addIndices]

/-- **C5.** Processing a heading line of level `L` removes every stack entry
of level ≥ L (keeping exactly those of level < L) and pushes the new
heading; the new section's heading path is the stacked texts outermost
first; an ordered stack stays strictly increasing through any step, and the
stack is strictly increasing after scanning any prefix of lines from the
start. -/
theorem heading_stack_discipline (st : ScanState) (line : Str) (level : Nat) (htext : Str)
    (hord : StackOrdered st.stack) (hp : parseHeading line = some (level, htext)) :
    (scanStep st line).stack =
        st.stack.filter (fun h => h.level < level) ++ [⟨level, htext⟩] ∧
      StackOrdered (scanStep st line).stack ∧
      (scanStep st line).current.headings = ((scanStep st line).stack).map (·.text) ∧
      ∀ lines : List Str, StackOrdered ((lines.foldl scanStep initScan).stack) :=
  ⟨by simp [scanStep, hp], scanStep_stack_ordered st line hord, by simp [scanStep, hp],
    scan_stack_ordered⟩

/-- Witness for C5 at a concrete state and heading line. -/
theorem heading_stack_discipline_witness :
    StackOrdered [⟨1, "A".data⟩] ∧
      parseHeading "## B".data = some (2, "B".data) ∧
      (scanStep ⟨[], ⟨["A".data], ["# A".data]⟩, [⟨1, "A".data⟩]⟩ "## B".data).stack =
        ([⟨1, "A".data⟩] : List Heading).filter (fun h => h.level < 2) ++ [⟨2, "B".data⟩] :=
  ⟨by decide, by decide,
    (heading_stack_discipline ⟨[], ⟨["A".data], ["# A".data]⟩, [⟨1, "A".data⟩]⟩
      "## B".data 2 "B".data (by decide) (by decide)).1⟩

/-- **C6.** Under the precondition `0 ≤ chunk_overlap < chunk_size`, the
overlap-windowing loop of `_chunk_section` terminates (the fuel-indexed
model completes within `len(words)` iterations, returning `some`), for
every section text — hence the chunk list of every document is finite. -/
theorem chunk_loop_terminates (size overlap : Nat) (text : Str) (h : overlap < size) :
    (emitChunks size (size - overlap) (pyWords text) 0 (pyWords text).length).isSome = true :=
  emitChunks_isSome size (size - overlap) (pyWords text) (by omega)
    (pyWords text).length 0 (by omega)

/-- Witness for C6 at `chunk_size = 2`, `chunk_overlap = 1`, a 3-word
section. -/
theorem chunk_loop_terminates_witness :
    1 < 2 ∧
      (emitChunks 2 (2 - 1) (pyWords "a b c".data) 0 (pyWords "a b c".data).length).isSome
        = true :=
  ⟨by norm_num, chunk_loop_terminates 2 1 "a b c".data (by norm_num)⟩

/-- **C8 counterexample.** A document with 6 words (fewer than
`chunk_size = 800`) but two heading lines produces TWO chunks, not one:
each heading starts its own section and each section becomes a chunk. -/
theorem small_doc_counterexample :
    (pyWords "# A\nx\n# B\ny".data).length < 800 ∧
      (chunkDocument ⟨800, 100⟩ ⟨"u".data, "t".data, "# A\nx\n# B\ny".data, none⟩).length = 2 ∧
      (chunkDocument ⟨800, 100⟩ ⟨"u".data, "t".data, "# A\nx\n# B\ny".data, none⟩).length ≠ 1 :=
  ⟨by decide, by decide, by decide⟩

/-- **C8 amended.** A document whose content contains no markdown heading
line and fewer than `chunk_size` whitespace-delimited words produces exactly
one chunk. -/
theorem small_headingless_doc_one_chunk (cfg : Config) (doc : Document)
    (hnohead : ∀ l ∈ splitChar '\n' doc.content, parseHeading l = none)
    (hsmall : (pyWords doc.content).length < cfg.chunk_size) :
    (chunkDocument cfg doc).length = 1 := by
  have hsec := splitByHeadings_no_heading doc.content hnohead
  simp only [chunkDocument, hsec, List.map_cons, List.map_nil, List.flatten_cons,
    List.flatten_nil, List.append_nil]
  rw [addIndices_length]
  simp only [chunkSection]
  rw [if_pos (le_of_lt hsmall)]
  rfl

/-- Witness for C8 (amended) on a heading-free two-word document. -/
theorem small_headingless_doc_one_chunk_witness :
    (∀ l ∈ splitChar '\n' ("hello world".data : Str), parseHeading l = none) ∧
      (pyWords ("hello world".data : Str)).length < 800 ∧
      (chunkDocument ⟨800, 100⟩ ⟨"u".data, "t".data, "hello world".data, none⟩).length = 1 :=
  ⟨by decide, by decide,
    small_headingless_doc_one_chunk ⟨800, 100⟩ ⟨"u".data, "t".data, "hello world".data, none⟩
      (by decide) (by decide)⟩

/-- **C9.** Within one document the chunk ids are pairwise distinct: every
chunk id is the document's shared 8-character hexadecimal MD5 prefix of the
url, `'_'`, and the chunk's position in decimal, and the positions differ
chunk to chunk. -/
theorem chunk_ids_distinct (cfg : Config) (doc : Document) :
    (∀ (i : Nat) (h : i < (chunkDocument cfg doc).length),
        ((chunkDocument cfg doc).get ⟨i, h⟩).chunk_id =
            urlToId doc.url ++ '_' :: natToStr i ∧
          (urlToId doc.url).length = 8 ∧ ∀ c ∈ urlToId doc.url, c ∈ hexChars) ∧
      ∀ (i j : Nat) (hi : i < (chunkDocument cfg doc).length)
        (hj : j < (chunkDocument cfg doc).length), i ≠ j →
          ((chunkDocument cfg doc).get ⟨i, hi⟩).chunk_id ≠
            ((chunkDocument cfg doc).get ⟨j, hj⟩).chunk_id := by
  have hid : ∀ (i : Nat) (h : i < (chunkDocument cfg doc).length),
      ((chunkDocument cfg doc).get ⟨i, h⟩).chunk_id = chunkIdOf doc.url i := by
    intro i
    simp only [chunkDocument]
    intro h
    simpa using addIndices_get_id doc.url _ _ 0 i h
  refine ⟨fun i h => ⟨?_, length_urlToId doc.url, urlToId_chars doc.url⟩,
    fun i j hi hj hij heq => ?_⟩
  · rw [hid i h]
    rfl
  · rw [hid i hi, hid j hj] at heq
    exact chunkIdOf_inj doc.url i j hij heq

/-- **C4 counterexample.** On the spec's end-to-end example the second
chunk has 302 words, not the claimed 300: the section text includes the
heading line, so the word stream is `#, Intro, word*1000` (1002 words) and
the final window covers word-stream indices 700–1001. -/
theorem example_doc_counterexample :
    (chunkDocument ⟨800, 100⟩ exampleDoc).map (fun c => (pyWords c.text).length) = [800, 302] ∧
      (chunkDocument ⟨800, 100⟩ exampleDoc).map (fun c => (pyWords c.text).length)
        ≠ [800, 300] := by
  refine ⟨exampleDoc_eval.2.1, ?_⟩
  rw [exampleDoc_eval.2.1]
  decide

/-- **C4 amended.** The example document chunked with
`chunk_size=800, chunk_overlap=100` gives exactly 2 chunks: chunk 0 has 800
words (word-stream indices 0–799, where the 1002-word stream includes the
heading-line tokens `#` and `Intro`) with heading hierarchy `Intro`, chunk 1
has 302 words (word-stream indices 700–1001), and both carry
`total_chunks = 2`. -/
theorem example_doc_chunks :
    (chunkDocument ⟨800, 100⟩ exampleDoc).length = 2 ∧
      (chunkDocument ⟨800, 100⟩ exampleDoc).map (fun c => (pyWords c.text).length)
        = [800, 302] ∧
      (chunkDocument ⟨800, 100⟩ exampleDoc).map (·.heading_hierarchy)
        = ["Intro".data, "Intro".data] ∧
      (chunkDocument ⟨800, 100⟩ exampleDoc).map (·.total_chunks) = [2, 2] :=
  exampleDoc_eval

/-- **C7.** `validate_metadata` never raises (it is a total function), its
counts satisfy `passed + failed = total_chunks = len(results)`; a result
passes exactly when `text`, `url`, `title`, `chunk_id` are present and
non-empty, a non-empty url starts with `http://` or `https://`,
`0 ≤ chunk_index < total_chunks` whenever both fields are present, and the
score (default 0) lies in `[0, 1]`; and a record well-formed in every other
way but with `chunk_index=5, total_chunks=3` fails with exactly one
issue. -/
theorem validate_metadata_spec :
    (∀ rs : List RetrievedChunk,
        (validateMetadata rs).total_chunks = rs.length ∧
        (validateMetadata rs).passed + (validateMetadata rs).failed = rs.length) ∧
      (∀ r : RetrievedChunk,
        recordIssues r = [] ↔
          (truthy r.text = true ∧ truthy r.url = true ∧ truthy r.title = true ∧
            truthy r.chunk_id = true ∧
            (r.url.getD [] ≠ [] →
              (startsWith (r.url.getD []) "http://".data = true ∨
               startsWith (r.url.getD []) "https://".data = true)) ∧
            (∀ ci tc : Int, r.chunk_index = some ci → r.total_chunks = some tc →
              0 ≤ ci ∧ ci < tc) ∧
            (0 ≤ r.score.getD 0 ∧ r.score.getD 0 ≤ 1))) ∧
      (validateMetadata [badIndexRecord]).passed = 0 ∧
      (validateMetadata [badIndexRecord]).failed = 1 ∧
      (validateMetadata [badIndexRecord]).issues.map (fun e => e.issues.length) = [1] := by
  refine ⟨fun rs => ⟨rfl, vmGo_counts rs 0⟩, fun r => ?_, by decide, by decide, by decide⟩
  simp only [recordIssues, List.append_eq_nil, ite_nil_iff, ite_nil_iff_not, not_not,
    not_and, not_or, ne_eq, indexIssues_nil_iff]
  tauto

/-- **C10.** A section of at most `chunk_size` words is emitted verbatim as
the single chunk's text (newlines and spacing preserved); the chunks of a
longer section are word windows re-joined with single spaces, so a
size-windowed chunk's text contains no newline and no two consecutive
spaces. -/
theorem chunk_section_text_shape (cfg : Config) (text : Str) (headings : List Str)
    (url title : Str) (module : Option Str) :
    ((pyWords text).length ≤ cfg.chunk_size →
        (chunkSection cfg text headings url title module).map (·.text) = [text]) ∧
      (cfg.chunk_size < (pyWords text).length →
        ∀ c ∈ chunkSection cfg text headings url title module,
          (∃ ws : List Str, (∀ w ∈ ws, w ∈ pyWords text) ∧ c.text = joinWords ws) ∧
            '\n' ∉ c.text ∧ hasDoubleSpace c.text = false) := by
  constructor
  · intro h
    simp only [chunkSection]
    rw [if_pos h]
    rfl
  · intro h c hc
    simp only [chunkSection] at hc
    rw [if_neg (by omega)] at hc
    cases hres : emitChunks cfg.chunk_size (cfg.chunk_size - cfg.chunk_overlap)
        (pyWords text) 0 (pyWords text).length with
    | none =>
      rw [hres] at hc
      simp at hc
    | some l =>
      rw [hres] at hc
      simp only [Option.getD_some] at hc
      obtain ⟨w, hw, rfl⟩ := List.mem_map.mp hc
      have hmem : ∀ x ∈ w, x ∈ pyWords text :=
        emitChunks_window_mem _ _ _ _ _ l hres w hw
      have hwf : ∀ x ∈ w, x ≠ [] ∧ ∀ ch ∈ x, isPySpace ch = false :=
        fun x hx => pyWords_wf text x (hmem x hx)
      refine ⟨⟨w, hmem, rfl⟩, ?_, hasDoubleSpace_joinWords w hwf⟩
      intro hnl
      rcases mem_joinWords hnl with h' | ⟨u, hu, hcu⟩
      · exact absurd h' (by decide)
      · exact absurd ((hwf u hu).2 '\n' hcu) (by decide)

/-- Consecutive windows of the loop overlap by `ov` words whenever the
earlier window is full. -/
theorem emitChunks_overlap (size ov : Nat) (words : List Str) (l : List (List Str))
    (hov : ov < size)
    (hl : emitChunks size (size - ov) words 0 words.length = some l)
    (i : Nat) (hi1 : i + 1 < l.length)
    (hfull : (l.get ⟨i, Nat.lt_of_succ_lt hi1⟩).length = size) :
    lastN ov (l.get ⟨i, Nat.lt_of_succ_lt hi1⟩) = (l.get ⟨i + 1, hi1⟩).take ov := by
  have hgi := emitChunks_get _ _ _ _ _ _ hl i (Nat.lt_of_succ_lt hi1)
  have hgi1 := emitChunks_get _ _ _ _ _ _ hl (i + 1) hi1
  rw [Nat.zero_add] at hgi hgi1
  have hfull' : ((words.drop ((size - ov) * i)).take size).length = size := by
    rw [← hgi]; exact hfull
  have hbound : (size - ov) * i + size ≤ words.length := by
    rw [List.length_take, List.length_drop] at hfull'
    omega
  rw [hgi, hgi1, lastN, hfull']
  rw [List.drop_take, List.drop_drop, List.take_take]
  have h1 : size - (size - ov) = ov := by omega
  have h2 : (size - ov) * i + (size - ov) = (size - ov) * (i + 1) := by
    rw [Nat.mul_succ]
  have h3 : min ov size = ov := by omega
  rw [h1, h2, h3]

/-- **C2 counterexample.** With `chunk_size = 3`, `chunk_overlap = 2` (so
`0 ≤ overlap < size`) and the 5-word section `a b c d e`, the loop emits
`a b c / b c d / c d e / d e / e`; for the consecutive pair (3, 4) the last
two words of chunk 3 are `d e` while the first two words of chunk 4 are
just `e`, so the overlap invariant fails as universally stated. -/
theorem chunk_overlap_counterexample :
    2 < 3 ∧ 3 < (pyWords "a b c d e".data).length ∧
      (chunkSection ⟨3, 2⟩ "a b c d e".data [] [] [] none).length = 5 ∧
      lastN 2
          (pyWords ((chunkSection ⟨3, 2⟩ "a b c d e".data [] [] [] none).getD 3 emptySC).text) ≠
        (pyWords
            ((chunkSection ⟨3, 2⟩ "a b c d e".data [] [] [] none).getD 4 emptySC).text).take 2 :=
  ⟨by norm_num, by decide, by decide, by decide⟩

/-- **C2 amended.** For a section of more than `chunk_size` words (with
`0 ≤ chunk_overlap < chunk_size`), the last `chunk_overlap` words of chunk
`i` equal the first `chunk_overlap` words of chunk `i+1` whenever chunk `i`
is a full window of exactly `chunk_size` words — which is the case for
every consecutive pair except possibly the final one (a trailing partial
window shorter than `chunk_overlap` breaks the unrestricted claim). -/
theorem consecutive_chunk_overlap (cfg : Config) (text : Str) (headings : List Str)
    (url title : Str) (module : Option Str) (i : Nat)
    (hov : cfg.chunk_overlap < cfg.chunk_size)
    (hbig : cfg.chunk_size < (pyWords text).length)
    (hi1 : i + 1 < (chunkSection cfg text headings url title module).length)
    (hfull : (pyWords ((chunkSection cfg text headings url title module).get
        ⟨i, Nat.lt_of_succ_lt hi1⟩).text).length = cfg.chunk_size) :
    lastN cfg.chunk_overlap
        (pyWords ((chunkSection cfg text headings url title module).get
          ⟨i, Nat.lt_of_succ_lt hi1⟩).text) =
      (pyWords ((chunkSection cfg text headings url title module).get
        ⟨i + 1, hi1⟩).text).take cfg.chunk_overlap := by
  obtain ⟨l, hl⟩ : ∃ l, emitChunks cfg.chunk_size (cfg.chunk_size - cfg.chunk_overlap)
      (pyWords text) 0 (pyWords text).length = some l :=
    Option.isSome_iff_exists.mp (emitChunks_isSome _ _ _ (by omega) _ 0 (by omega))
  have hsec : chunkSection cfg text headings url title module =
      l.map (fun ws => ⟨joinWords ws, url, title, module, headingHierarchy headings title⟩) := by
    simp only [chunkSection]
    rw [if_neg (by omega), hl]
    rfl
  have hlen : (chunkSection cfg text headings url title module).length = l.length := by
    rw [hsec, List.length_map]
  have htext : ∀ (k : Nat) (hk : k < (chunkSection cfg text headings url title module).length),
      pyWords (((chunkSection cfg text headings url title module).get ⟨k, hk⟩).text) =
        l.get ⟨k, by omega⟩ := by
    intro k hk
    rw [List.get_of_eq hsec ⟨k, hk⟩, List.get_map]
    apply pyWords_joinWords
    intro w hw
    exact pyWords_wf text w
      (emitChunks_window_mem _ _ _ _ _ l hl _ (List.get_mem l _ _) w hw)
  have hi1l : i + 1 < l.length := by omega
  have hfull2 : (l.get ⟨i, Nat.lt_of_succ_lt hi1l⟩).length = cfg.chunk_size := by
    rw [← htext i (Nat.lt_of_succ_lt hi1)]
    exact hfull
  rw [htext i (Nat.lt_of_succ_lt hi1), htext (i + 1) hi1]
  exact emitChunks_overlap _ _ _ l hov hl i hi1l hfull2

/-- Witness for C2 (amended) at `chunk_size = 3, chunk_overlap = 1` on the
section `a b c d e`: chunks `a b c / c d e / e`, pair (0, 1). -/
theorem consecutive_chunk_overlap_witness :
    1 < 3 ∧ 3 < (pyWords "a b c d e".data).length ∧
      (pyWords ((chunkSection ⟨3, 1⟩ "a b c d e".data [] [] [] none).get
          ⟨0, by decide⟩).text).length = 3 ∧
      lastN 1 (pyWords ((chunkSection ⟨3, 1⟩ "a b c d e".data [] [] [] none).get
          ⟨0, by decide⟩).text) =
        (pyWords ((chunkSection ⟨3, 1⟩ "a b c d e".data [] [] [] none).get
          ⟨1, by decide⟩).text).take 1 :=
  ⟨by norm_num, by decide, by decide,
    consecutive_chunk_overlap ⟨3, 1⟩ "a b c d e".data [] [] [] none 0 (by norm_num)
      (by decide) (by decide) (by decide)⟩

end RagChatbot
